import Mathlib

/-!
Verification of the AutoTrade-Shell operator utilities.

The development embeds the two tools of the repository:

* `tools/del_dir.py` — a sweeper that walks the `/tmp` tree, finds directories
  holding the sentinel file `fx_debug_log.txt`, and recursively deletes every
  such directory except the one recorded as currently active in
  `last_temp.txt`.
* `tools/xmledit.py` — a configuration editor over an XML document of
  `table` records with `key`, `value` and `ettc` columns, with a `view`
  rendering mode and a single key update mode that persists the document
  and offers a service restart.

Filesystem trees are modelled as finite rose trees, paths as the strings the
Python code manipulates, and path canonicalization (`os.path.realpath`) as an
abstract function parameter `rp`.  The XML document is modelled as the list of
its `table` records in document order.
-/

/-! ## Embedding of tools/del_dir.py -/

def TMP_DIR : String := "/tmp"

def TARGET_LOG : String := "fx_debug_log.txt"

def LAST_TEMP_FILE : String := "/opt/Innovations/System/last_temp/last_temp.txt"

/-- Python `str.strip()`: drop whitespace from both ends, over the character
list of the string. -/
def pyStrip (s : String) : String :=
  ⟨((s.data.dropWhile Char.isWhitespace).reverse.dropWhile Char.isWhitespace).reverse⟩

/-- Python `str.startswith(pre)`, over the character lists. -/
def pyStarts (s pre : String) : Bool :=
  pre.data.isPrefixOf s.data

/-- `load_active_tmp_dir` from `del_dir.py`.  The marker file content is
`none` when the file is absent, otherwise the list of its lines.  Each line is
stripped, blank lines are dropped, and the lines are scanned from the end for
the first one starting with the literal prefix `/tmp/`; the result is passed
through `os.path.realpath`, modelled by the abstract canonicalizer `rp`. -/
def load_active_tmp_dir (rp : String → String) (marker : Option (List String)) :
    Option String :=
  match marker with
  | none => none
  | some rawLines =>
    let lines := (rawLines.map pyStrip).filter (fun l => l ≠ "")
    (lines.reverse.find? (fun l => pyStarts l "/tmp/")).map rp

/-- A directory tree: the immediate file names and the named subdirectories. -/
inductive FSTree where
  | node (files : List String) (subs : List (String × FSTree))

/-- Immediate file list of the root of a tree. -/
def FSTree.rootFiles : FSTree → List String
  | .node files _ => files

mutual

def FSTree.decEq : (a b : FSTree) → Decidable (a = b)
  | .node f1 s1, .node f2 s2 =>
    match instDecidableEqList f1 f2 with
    | isFalse h => isFalse (by intro hc; cases hc; exact h rfl)
    | isTrue h1 =>
      match FSTree.decEqSubs s1 s2 with
      | isTrue h2 => isTrue (by rw [h1, h2])
      | isFalse h2 => isFalse (by intro hc; cases hc; exact h2 rfl)

def FSTree.decEqSubs : (a b : List (String × FSTree)) → Decidable (a = b)
  | [], [] => isTrue rfl
  | [], _ :: _ => isFalse (by intro hc; cases hc)
  | _ :: _, [] => isFalse (by intro hc; cases hc)
  | (n1, c1) :: r1, (n2, c2) :: r2 =>
    match instDecidableEqString n1 n2 with
    | isFalse h => isFalse (by intro hc; cases hc; exact h rfl)
    | isTrue h1 =>
      match FSTree.decEq c1 c2 with
      | isFalse h => isFalse (by intro hc; cases hc; exact h rfl)
      | isTrue h2 =>
        match FSTree.decEqSubs r1 r2 with
        | isFalse h => isFalse (by intro hc; cases hc; exact h rfl)
        | isTrue h3 => isTrue (by rw [h1, h2, h3])

end

instance : DecidableEq FSTree := FSTree.decEq

/-- One status line printed by the sweep loop: a directory kept because it is
the active one, or a directory passed to `shutil.rmtree`. -/
inductive SweepAction where
  | skip (p : String)
  | delete (p : String)
deriving DecidableEq

mutual

/-- The `os.walk` loop of `cleanup_tmp_dirs`, at a directory with full path
`path`.  If the immediate files contain the sentinel, the directory is either
skipped (when canonically equal to the active directory — the walk still
descends into its subdirectories, as `continue` only skips the loop body) or
recursively removed (in which case the walk never sees the removed
subdirectories: `os.walk` swallows the scandir failure).  Returns the status
lines in walk order and the surviving tree, `none` when this directory itself
was removed. -/
def sweepGo (rp : String → String) (active : Option String) (path : String) :
    FSTree → List SweepAction × Option FSTree
  | .node files subs =>
    if TARGET_LOG ∈ files then
      if active = some (rp path) then
        let r := sweepSubs rp active path subs
        (SweepAction.skip (rp path) :: r.1, some (.node files r.2))
      else
        ([SweepAction.delete (rp path)], none)
    else
      let r := sweepSubs rp active path subs
      (r.1, some (.node files r.2))

/-- The walk over the subdirectories of a directory with full path `path`,
in listing order; `os.path.join` is string concatenation with `/`. -/
def sweepSubs (rp : String → String) (active : Option String) (path : String) :
    List (String × FSTree) → List SweepAction × List (String × FSTree)
  | [] => ([], [])
  | (nm, c) :: rest =>
    let rc := sweepGo rp active (path ++ "/" ++ nm) c
    let rr := sweepSubs rp active path rest
    (rc.1 ++ rr.1,
      (match rc.2 with
       | some c' => [(nm, c')]
       | none => []) ++ rr.2)

end

/-- `cleanup_tmp_dirs` from `del_dir.py`: resolve the active directory from
the marker file, then sweep the `/tmp` tree. -/
def cleanup_tmp_dirs (rp : String → String) (marker : Option (List String))
    (t : FSTree) : List SweepAction × Option FSTree :=
  sweepGo rp (load_active_tmp_dir rp marker) TMP_DIR t

mutual

/-- All directories of a tree whose root has full path `path`, as pairs of
full path and immediate file list, in walk order. -/
def dirsGo (path : String) : FSTree → List (String × List String)
  | .node files subs => (path, files) :: dirsSubs path subs

/-- Directory listing of a subdirectory forest, the parent being `path`. -/
def dirsSubs (path : String) : List (String × FSTree) → List (String × List String)
  | [] => []
  | (nm, c) :: rest => dirsGo (path ++ "/" ++ nm) c ++ dirsSubs path rest

end

/-- Directory listing of an optional tree (deleted trees list nothing). -/
def dirsOpt (path : String) : Option FSTree → List (String × List String)
  | none => []
  | some t => dirsGo path t

mutual

/-- No directory anywhere in the tree holds the sentinel file. -/
def sentFree : FSTree → Bool
  | .node files subs => !(files.contains TARGET_LOG) && sentFreeSubs subs

def sentFreeSubs : List (String × FSTree) → Bool
  | [] => true
  | (_, c) :: rest => sentFree c && sentFreeSubs rest

end

mutual

/-- No sentinel-bearing directory lies strictly inside another sentinel-bearing
directory. -/
def noNest : FSTree → Bool
  | .node files subs =>
    if TARGET_LOG ∈ files then sentFreeSubs subs else noNestSubs subs

def noNestSubs : List (String × FSTree) → Bool
  | [] => true
  | (_, c) :: rest => noNest c && noNestSubs rest

end

/-! ## Unfolding lemmas for the sweep -/

theorem sweepGo_sent_skip (rp : String → String) (active : Option String) (path : String)
    (files : List String) (subs : List (String × FSTree))
    (hs : TARGET_LOG ∈ files) (ha : active = some (rp path)) :
    sweepGo rp active path (.node files subs) =
      (SweepAction.skip (rp path) :: (sweepSubs rp active path subs).1,
        some (.node files (sweepSubs rp active path subs).2)) := by
  simp [sweepGo, hs, ha]

theorem sweepGo_sent_del (rp : String → String) (active : Option String) (path : String)
    (files : List String) (subs : List (String × FSTree))
    (hs : TARGET_LOG ∈ files) (ha : active ≠ some (rp path)) :
    sweepGo rp active path (.node files subs) = ([SweepAction.delete (rp path)], none) := by
  simp [sweepGo, hs, ha]

theorem sweepGo_nosent (rp : String → String) (active : Option String) (path : String)
    (files : List String) (subs : List (String × FSTree))
    (hs : TARGET_LOG ∉ files) :
    sweepGo rp active path (.node files subs) =
      ((sweepSubs rp active path subs).1,
        some (.node files (sweepSubs rp active path subs).2)) := by
  simp [sweepGo, hs]

theorem sweepSubs_nil (rp : String → String) (active : Option String) (path : String) :
    sweepSubs rp active path [] = ([], []) := rfl

theorem sweepSubs_cons (rp : String → String) (active : Option String) (path : String)
    (nm : String) (c : FSTree) (rest : List (String × FSTree)) :
    sweepSubs rp active path ((nm, c) :: rest) =
      ((sweepGo rp active (path ++ "/" ++ nm) c).1 ++ (sweepSubs rp active path rest).1,
        (match (sweepGo rp active (path ++ "/" ++ nm) c).2 with
         | some c' => [(nm, c')]
         | none => []) ++ (sweepSubs rp active path rest).2) := by
  simp [sweepSubs]

/-! ## Idempotence of the sweep -/

mutual

theorem sweep_idem_go (rp : String → String) (active : Option String) (path : String)
    (t t' : FSTree) (h : (sweepGo rp active path t).2 = some t') :
    (sweepGo rp active path t').2 = some t' ∧
      ∀ p, SweepAction.delete p ∉ (sweepGo rp active path t').1 := by
  cases t with
  | node files subs =>
    by_cases hs : TARGET_LOG ∈ files
    · by_cases ha : active = some (rp path)
      · rw [sweepGo_sent_skip rp active path files subs hs ha] at h
        simp only [Option.some.injEq] at h
        obtain ⟨hi1, hi2⟩ := sweep_idem_subs rp active path subs
        subst h
        rw [sweepGo_sent_skip rp active path _ _ hs ha]
        refine ⟨by simp [hi1], ?_⟩
        intro p
        simp only [List.mem_cons]
        rintro (hh | hh)
        · exact absurd hh (by simp)
        · exact hi2 p hh
      · rw [sweepGo_sent_del rp active path files subs hs ha] at h
        simp at h
    · rw [sweepGo_nosent rp active path files subs hs] at h
      simp only [Option.some.injEq] at h
      obtain ⟨hi1, hi2⟩ := sweep_idem_subs rp active path subs
      subst h
      rw [sweepGo_nosent rp active path _ _ hs]
      exact ⟨by simp [hi1], fun p hh => hi2 p hh⟩

theorem sweep_idem_subs (rp : String → String) (active : Option String) (path : String)
    (l : List (String × FSTree)) :
    (sweepSubs rp active path (sweepSubs rp active path l).2).2 = (sweepSubs rp active path l).2 ∧
      ∀ p, SweepAction.delete p ∉ (sweepSubs rp active path (sweepSubs rp active path l).2).1 := by
  cases l with
  | nil => simp [sweepSubs_nil]
  | cons hd rest =>
    obtain ⟨nm, c⟩ := hd
    obtain ⟨ih1, ih2⟩ := sweep_idem_subs rp active path rest
    rw [sweepSubs_cons]
    cases hc : (sweepGo rp active (path ++ "/" ++ nm) c).2 with
    | none =>
      simp only [List.nil_append]
      exact ⟨ih1, ih2⟩
    | some c' =>
      obtain ⟨g1, g2⟩ := sweep_idem_go rp active (path ++ "/" ++ nm) c c' hc
      simp only [List.singleton_append, sweepSubs_cons, g1, ih1, List.mem_append]
      refine ⟨trivial, ?_⟩
      intro p hp
      cases hp with
      | inl hh => exact g2 p hh
      | inr hh => exact ih2 p hh

end

/-! ## Sweep with no active directory: everything sentinel-bearing goes -/

mutual

theorem sweep_none_go (rp : String → String) (path : String) (t : FSTree) :
    (∀ p, SweepAction.skip p ∉ (sweepGo rp none path t).1) ∧
      ∀ t', (sweepGo rp none path t).2 = some t' → sentFree t' = true := by
  cases t with
  | node files subs =>
    by_cases hs : TARGET_LOG ∈ files
    · rw [sweepGo_sent_del rp none path files subs hs (by simp)]
      constructor
      · intro p
        simp
      · intro t' ht'
        simp at ht'
    · rw [sweepGo_nosent rp none path files subs hs]
      obtain ⟨ih1, ih2⟩ := sweep_none_subs rp path subs
      refine ⟨ih1, ?_⟩
      intro t' ht'
      simp only [Option.some.injEq] at ht'
      subst ht'
      simp only [sentFree, Bool.and_eq_true, Bool.not_eq_true']
      exact ⟨by simpa using hs, ih2⟩

theorem sweep_none_subs (rp : String → String) (path : String)
    (l : List (String × FSTree)) :
    (∀ p, SweepAction.skip p ∉ (sweepSubs rp none path l).1) ∧
      sentFreeSubs (sweepSubs rp none path l).2 = true := by
  cases l with
  | nil => simp [sweepSubs_nil, sentFreeSubs]
  | cons hd rest =>
    obtain ⟨nm, c⟩ := hd
    obtain ⟨ih1, ih2⟩ := sweep_none_subs rp path rest
    obtain ⟨g1, g2⟩ := sweep_none_go rp (path ++ "/" ++ nm) c
    rw [sweepSubs_cons]
    constructor
    · intro p
      simp only [List.mem_append]
      rintro (hh | hh)
      · exact g1 p hh
      · exact ih1 p hh
    · cases hc : (sweepGo rp none (path ++ "/" ++ nm) c).2 with
      | none => simpa using ih2
      | some c' =>
        simp only [List.singleton_append, sentFreeSubs, Bool.and_eq_true]
        exact ⟨g2 c' hc, ih2⟩

end

/-! ## Sentinel-free subtrees hold no sentinel-bearing directories -/

mutual

theorem sentFree_dirs_go (path : String) (t : FSTree) (h : sentFree t = true) :
    ∀ p fs, (p, fs) ∈ dirsGo path t → TARGET_LOG ∉ fs := by
  cases t with
  | node files subs =>
    intro p fs hmem hfs
    simp only [sentFree, Bool.and_eq_true, Bool.not_eq_true'] at h
    obtain ⟨h1, h2⟩ := h
    simp only [dirsGo, List.mem_cons] at hmem
    cases hmem with
    | inl he =>
      obtain ⟨hp, hf⟩ := Prod.mk.injEq .. ▸ he
      subst hf
      exact absurd hfs (by simpa using h1)
    | inr hm => exact sentFree_dirs_subs path subs h2 p fs hm hfs

theorem sentFree_dirs_subs (path : String) (l : List (String × FSTree))
    (h : sentFreeSubs l = true) :
    ∀ p fs, (p, fs) ∈ dirsSubs path l → TARGET_LOG ∉ fs := by
  cases l with
  | nil =>
    intro p fs hmem
    simp [dirsSubs] at hmem
  | cons hd rest =>
    obtain ⟨nm, c⟩ := hd
    intro p fs hmem hfs
    simp only [sentFreeSubs, Bool.and_eq_true] at h
    obtain ⟨h1, h2⟩ := h
    simp only [dirsSubs, List.mem_append] at hmem
    cases hmem with
    | inl hm => exact sentFree_dirs_go (path ++ "/" ++ nm) c h1 p fs hm hfs
    | inr hm => exact sentFree_dirs_subs path rest h2 p fs hm hfs

end

/-! ## The visit dichotomy under non-nested sentinel directories -/

mutual

theorem sweep_dichot_go (rp : String → String) (active : Option String) (path : String)
    (t : FSTree) (hn : noNest t = true) :
    ∀ p fs, (p, fs) ∈ dirsGo path t → TARGET_LOG ∈ fs →
      (active = some (rp p) →
        SweepAction.skip (rp p) ∈ (sweepGo rp active path t).1 ∧
          (p, fs) ∈ dirsOpt path (sweepGo rp active path t).2) ∧
      (active ≠ some (rp p) →
        SweepAction.delete (rp p) ∈ (sweepGo rp active path t).1) := by
  cases t with
  | node files subs =>
    intro p fs hmem hfs
    simp only [dirsGo, List.mem_cons] at hmem
    by_cases hs : TARGET_LOG ∈ files
    · have hsf : sentFreeSubs subs = true := by
        simpa [noNest, hs] using hn
      cases hmem with
      | inl he =>
        obtain ⟨hp, hf⟩ := Prod.mk.injEq .. ▸ he
        subst hp
        subst hf
        constructor
        · intro ha
          rw [sweepGo_sent_skip rp active p fs subs hs ha]
          exact ⟨List.mem_cons_self .., List.mem_cons_self ..⟩
        · intro ha
          rw [sweepGo_sent_del rp active p fs subs hs ha]
          simp
      | inr hm =>
        exact absurd hfs (sentFree_dirs_subs path subs hsf p fs hm)
    · have hnn : noNestSubs subs = true := by
        simpa [noNest, hs] using hn
      cases hmem with
      | inl he =>
        obtain ⟨hp, hf⟩ := Prod.mk.injEq .. ▸ he
        subst hf
        exact absurd hfs hs
      | inr hm =>
        obtain ⟨g1, g2⟩ := sweep_dichot_subs rp active path subs hnn p fs hm hfs
        rw [sweepGo_nosent rp active path files subs hs]
        constructor
        · intro ha
          obtain ⟨ga, gb⟩ := g1 ha
          exact ⟨ga, by simpa [dirsOpt, dirsGo] using Or.inr gb⟩
        · intro ha
          exact g2 ha

theorem sweep_dichot_subs (rp : String → String) (active : Option String) (path : String)
    (l : List (String × FSTree)) (hn : noNestSubs l = true) :
    ∀ p fs, (p, fs) ∈ dirsSubs path l → TARGET_LOG ∈ fs →
      (active = some (rp p) →
        SweepAction.skip (rp p) ∈ (sweepSubs rp active path l).1 ∧
          (p, fs) ∈ dirsSubs path (sweepSubs rp active path l).2) ∧
      (active ≠ some (rp p) →
        SweepAction.delete (rp p) ∈ (sweepSubs rp active path l).1) := by
  cases l with
  | nil =>
    intro p fs hmem
    simp [dirsSubs] at hmem
  | cons hd rest =>
    obtain ⟨nm, c⟩ := hd
    intro p fs hmem hfs
    simp only [noNestSubs, Bool.and_eq_true] at hn
    obtain ⟨hn1, hn2⟩ := hn
    simp only [dirsSubs, List.mem_append] at hmem
    rw [sweepSubs_cons]
    cases hmem with
    | inl hm =>
      obtain ⟨g1, g2⟩ := sweep_dichot_go rp active (path ++ "/" ++ nm) c hn1 p fs hm hfs
      constructor
      · intro ha
        obtain ⟨ga, gb⟩ := g1 ha
        refine ⟨by simp only [List.mem_append]; exact Or.inl ga, ?_⟩
        cases hc : (sweepGo rp active (path ++ "/" ++ nm) c).2 with
        | none =>
          rw [hc] at gb
          simp [dirsOpt] at gb
        | some c' =>
          rw [hc] at gb
          simp only [dirsOpt] at gb
          simp only [List.singleton_append, dirsSubs, List.mem_append]
          exact Or.inl gb
      · intro ha
        simp only [List.mem_append]
        exact Or.inl (g2 ha)
    | inr hm =>
      obtain ⟨g1, g2⟩ := sweep_dichot_subs rp active path rest hn2 p fs hm hfs
      constructor
      · intro ha
        obtain ⟨ga, gb⟩ := g1 ha
        refine ⟨by simp only [List.mem_append]; exact Or.inr ga, ?_⟩
        cases hc : (sweepGo rp active (path ++ "/" ++ nm) c).2 with
        | none =>
          simpa [dirsSubs] using gb
        | some c' =>
          simp only [List.singleton_append, dirsSubs, List.mem_append]
          exact Or.inr gb
      · intro ha
        simp only [List.mem_append]
        exact Or.inr (g2 ha)

end

/-! ## Every sentinel-bearing directory surviving the sweep is the active one -/

mutual

theorem sweep_residual_go (rp : String → String) (active : Option String) (path : String)
    (t : FSTree) :
    ∀ p fs, (p, fs) ∈ dirsOpt path (sweepGo rp active path t).2 → TARGET_LOG ∈ fs →
      active = some (rp p) := by
  cases t with
  | node files subs =>
    intro p fs hmem hfs
    by_cases hs : TARGET_LOG ∈ files
    · by_cases ha : active = some (rp path)
      · rw [sweepGo_sent_skip rp active path files subs hs ha] at hmem
        simp only [dirsOpt, dirsGo, List.mem_cons] at hmem
        cases hmem with
        | inl he =>
          obtain ⟨hp, hf⟩ := Prod.mk.injEq .. ▸ he
          subst hp
          exact ha
        | inr hm => exact sweep_residual_subs rp active path subs p fs hm hfs
      · rw [sweepGo_sent_del rp active path files subs hs ha] at hmem
        simp [dirsOpt] at hmem
    · rw [sweepGo_nosent rp active path files subs hs] at hmem
      simp only [dirsOpt, dirsGo, List.mem_cons] at hmem
      cases hmem with
      | inl he =>
        obtain ⟨hp, hf⟩ := Prod.mk.injEq .. ▸ he
        subst hf
        exact absurd hfs hs
      | inr hm => exact sweep_residual_subs rp active path subs p fs hm hfs

theorem sweep_residual_subs (rp : String → String) (active : Option String) (path : String)
    (l : List (String × FSTree)) :
    ∀ p fs, (p, fs) ∈ dirsSubs path (sweepSubs rp active path l).2 → TARGET_LOG ∈ fs →
      active = some (rp p) := by
  cases l with
  | nil =>
    intro p fs hmem
    simp [sweepSubs_nil, dirsSubs] at hmem
  | cons hd rest =>
    obtain ⟨nm, c⟩ := hd
    intro p fs hmem hfs
    rw [sweepSubs_cons] at hmem
    cases hc : (sweepGo rp active (path ++ "/" ++ nm) c).2 with
    | none =>
      rw [hc] at hmem
      simp only [List.nil_append] at hmem
      exact sweep_residual_subs rp active path rest p fs hmem hfs
    | some c' =>
      rw [hc] at hmem
      simp only [List.singleton_append, dirsSubs, List.mem_append] at hmem
      cases hmem with
      | inl hm =>
        have := sweep_residual_go rp active (path ++ "/" ++ nm) c p fs (by
          rw [hc]
          simpa [dirsOpt] using hm) hfs
        exact this
      | inr hm => exact sweep_residual_subs rp active path rest p fs hm hfs

end

/-! ## Scanning from the end is taking the last matching line -/

theorem foldl_lastMatch_eq_find_rev (p : String → Bool) (l : List String)
    (acc : Option String) :
    l.foldl (fun a s => if p s then some s else a) acc = (l.reverse.find? p).or acc := by
  induction l generalizing acc with
  | nil => simp
  | cons x xs ih =>
    simp only [List.foldl_cons, List.reverse_cons, List.find?_append]
    rw [ih, Option.or_assoc]
    congr 1
    by_cases hx : p x
    · simp [List.find?, hx]
    · simp [List.find?, hx]

/-- An action produced while sweeping a listed subdirectory is among the
actions produced for the whole listing. -/
theorem sweepSubs_child_actions (rp : String → String) (active : Option String)
    (path : String) (l : List (String × FSTree)) (nm : String) (c : FSTree)
    (hmem : (nm, c) ∈ l) :
    ∀ a, a ∈ (sweepGo rp active (path ++ "/" ++ nm) c).1 →
      a ∈ (sweepSubs rp active path l).1 := by
  induction l with
  | nil => simp at hmem
  | cons hd rest ih =>
    intro a ha
    obtain ⟨nm', c'⟩ := hd
    rw [sweepSubs_cons]
    simp only [List.mem_cons] at hmem
    simp only [List.mem_append]
    cases hmem with
    | inl he =>
      obtain ⟨h1, h2⟩ := Prod.mk.injEq .. ▸ he
      subst h1
      subst h2
      exact Or.inl ha
    | inr hm => exact Or.inr (ih hm a ha)

/-! ## Claims about the sweeper -/

/-- C1, counterexample to the claim as stated: in the tree
`/tmp/a` (sentinel) containing `/tmp/a/b` (sentinel), with `/tmp/a/b` the
active directory, the walk removes `/tmp/a` wholesale before ever visiting
`/tmp/a/b`; the sentinel-bearing directory whose canonical path equals the
active directory is deleted, not skipped. -/
theorem C1_nested_active_deleted_cex :
    ("/tmp/a/b", [TARGET_LOG]) ∈ dirsGo TMP_DIR
      (FSTree.node [] [("a", .node [TARGET_LOG] [("b", .node [TARGET_LOG] [])])]) ∧
    (sweepGo id (some (id "/tmp/a/b")) TMP_DIR
        (FSTree.node [] [("a", .node [TARGET_LOG] [("b", .node [TARGET_LOG] [])])])).1 =
      [SweepAction.delete "/tmp/a"] ∧
    SweepAction.skip "/tmp/a/b" ∉
      (sweepGo id (some (id "/tmp/a/b")) TMP_DIR
        (FSTree.node [] [("a", .node [TARGET_LOG] [("b", .node [TARGET_LOG] [])])])).1 ∧
    dirsOpt TMP_DIR (sweepGo id (some (id "/tmp/a/b")) TMP_DIR
        (FSTree.node [] [("a", .node [TARGET_LOG] [("b", .node [TARGET_LOG] [])])])).2 =
      [(TMP_DIR, [])] := by
  decide

/-- C1 (amended): provided no sentinel-bearing directory lies strictly inside
another sentinel-bearing directory, every sentinel-bearing directory is
visited and the claimed dichotomy holds: the one whose canonicalized path
equals the resolved active directory is skipped and survives, every other one
gets a deletion attempt; moreover every sentinel-bearing directory surviving
the sweep is canonically equal to the active directory. -/
theorem C1_sweep_visit_dichotomy (rp : String → String) (marker : Option (List String))
    (t : FSTree) (hn : noNest t = true) :
    (∀ p fs, (p, fs) ∈ dirsGo TMP_DIR t → TARGET_LOG ∈ fs →
      (load_active_tmp_dir rp marker = some (rp p) →
        SweepAction.skip (rp p) ∈ (cleanup_tmp_dirs rp marker t).1 ∧
          (p, fs) ∈ dirsOpt TMP_DIR (cleanup_tmp_dirs rp marker t).2) ∧
      (load_active_tmp_dir rp marker ≠ some (rp p) →
        SweepAction.delete (rp p) ∈ (cleanup_tmp_dirs rp marker t).1)) ∧
    ∀ q gs, (q, gs) ∈ dirsOpt TMP_DIR (cleanup_tmp_dirs rp marker t).2 →
      TARGET_LOG ∈ gs → load_active_tmp_dir rp marker = some (rp q) := by
  constructor
  · intro p fs hmem hfs
    exact sweep_dichot_go rp (load_active_tmp_dir rp marker) TMP_DIR t hn p fs hmem hfs
  · intro q gs hmem hgs
    exact sweep_residual_go rp (load_active_tmp_dir rp marker) TMP_DIR t q gs hmem hgs

/-- C1 witness: a two-directory flat tree where `/tmp/x` is active; the sweep
skips `/tmp/x` (which survives) and deletes `/tmp/y`. -/
theorem C1_sweep_visit_dichotomy_witness :
    noNest (FSTree.node [] [("x", .node [TARGET_LOG] []), ("y", .node [TARGET_LOG] [])]) =
      true ∧
    SweepAction.skip "/tmp/x" ∈
      (cleanup_tmp_dirs id (some ["/tmp/x"])
        (FSTree.node [] [("x", .node [TARGET_LOG] []), ("y", .node [TARGET_LOG] [])])).1 ∧
    SweepAction.delete "/tmp/y" ∈
      (cleanup_tmp_dirs id (some ["/tmp/x"])
        (FSTree.node [] [("x", .node [TARGET_LOG] []), ("y", .node [TARGET_LOG] [])])).1 := by
  refine ⟨by decide, ?_, ?_⟩
  · exact ((C1_sweep_visit_dichotomy id (some ["/tmp/x"])
      (FSTree.node [] [("x", .node [TARGET_LOG] []), ("y", .node [TARGET_LOG] [])])
      (by decide)).1 "/tmp/x" [TARGET_LOG] (by decide) (by decide)).1 (by decide) |>.1
  · exact ((C1_sweep_visit_dichotomy id (some ["/tmp/x"])
      (FSTree.node [] [("x", .node [TARGET_LOG] []), ("y", .node [TARGET_LOG] [])])
      (by decide)).1 "/tmp/y" [TARGET_LOG] (by decide) (by decide)).2 (by decide)

/-- C2, counterexample to the claim as stated: with `/tmp/abc` active and
sentinel-bearing, its subdirectory `/tmp/abc/sub` also sentinel-bearing, the
walk continues beneath the skipped active directory and deletes
`/tmp/abc/sub`, so contents beneath the active directory are not left
untouched. -/
theorem C2_subdir_of_active_deleted_cex :
    ("/tmp/abc/sub", [TARGET_LOG]) ∈ dirsGo TMP_DIR
      (FSTree.node [] [("abc", .node [TARGET_LOG] [("sub", .node [TARGET_LOG] [])])]) ∧
    (sweepGo id (some (id "/tmp/abc")) TMP_DIR
        (FSTree.node [] [("abc", .node [TARGET_LOG] [("sub", .node [TARGET_LOG] [])])])).1 =
      [SweepAction.skip "/tmp/abc", SweepAction.delete "/tmp/abc/sub"] ∧
    dirsOpt TMP_DIR (sweepGo id (some (id "/tmp/abc")) TMP_DIR
        (FSTree.node [] [("abc", .node [TARGET_LOG] [("sub", .node [TARGET_LOG] [])])])).2 =
      [(TMP_DIR, []), ("/tmp/abc", [TARGET_LOG])] := by
  decide

/-- C2 (amended): when a visited sentinel-bearing directory equals the active
directory, the directory itself and its immediate file list survive the sweep
unchanged, but the walk does continue beneath it: each immediate
sentinel-bearing subdirectory whose canonical path differs from the active
directory is recursively deleted, with a deletion recorded in the sweep
report. -/
theorem C2_active_dir_kept_walk_descends (rp : String → String) (active : Option String)
    (path : String) (files : List String) (subs : List (String × FSTree))
    (hs : TARGET_LOG ∈ files) (ha : active = some (rp path)) :
    (sweepGo rp active path (.node files subs)).2 =
      some (.node files (sweepSubs rp active path subs).2) ∧
    ∀ nm c, (nm, c) ∈ subs → TARGET_LOG ∈ c.rootFiles →
      rp (path ++ "/" ++ nm) ≠ rp path →
      sweepGo rp active (path ++ "/" ++ nm) c =
        ([SweepAction.delete (rp (path ++ "/" ++ nm))], none) ∧
      SweepAction.delete (rp (path ++ "/" ++ nm)) ∈
        (sweepGo rp active path (.node files subs)).1 := by
  constructor
  · rw [sweepGo_sent_skip rp active path files subs hs ha]
  · intro nm c hmem hcf hne
    have hana : active ≠ some (rp (path ++ "/" ++ nm)) := by
      rw [ha]
      intro hcon
      exact hne (Option.some.injEq .. ▸ hcon.symm)
    cases c with
    | node cf cs =>
      have hdel := sweepGo_sent_del rp active (path ++ "/" ++ nm) cf cs
        (by simpa [FSTree.rootFiles] using hcf) hana
      refine ⟨hdel, ?_⟩
      rw [sweepGo_sent_skip rp active path files subs hs ha]
      have := sweepSubs_child_actions rp active path subs nm (.node cf cs) hmem
        (SweepAction.delete (rp (path ++ "/" ++ nm))) (by rw [hdel]; simp)
      simp only [List.mem_cons]
      exact Or.inr this

/-- C2 witness: `/tmp/abc` active with sentinel, child `sub` with sentinel;
the active directory survives with its files while `sub` is deleted and the
deletion is reported. -/
theorem C2_active_dir_kept_walk_descends_witness :
    (sweepGo id (some (id "/tmp/abc")) "/tmp/abc"
        (.node [TARGET_LOG] [("sub", .node [TARGET_LOG] [])])).2 =
      some (.node [TARGET_LOG]
        (sweepSubs id (some (id "/tmp/abc")) "/tmp/abc"
          [("sub", .node [TARGET_LOG] [])]).2) ∧
    (sweepGo id (some (id "/tmp/abc")) ("/tmp/abc" ++ "/" ++ "sub")
        (.node [TARGET_LOG] []) =
      ([SweepAction.delete (id ("/tmp/abc" ++ "/" ++ "sub"))], none) ∧
    SweepAction.delete (id ("/tmp/abc" ++ "/" ++ "sub")) ∈
      (sweepGo id (some (id "/tmp/abc")) "/tmp/abc"
        (.node [TARGET_LOG] [("sub", .node [TARGET_LOG] [])])).1) := by
  refine ⟨(C2_active_dir_kept_walk_descends id (some (id "/tmp/abc")) "/tmp/abc"
      [TARGET_LOG] [("sub", .node [TARGET_LOG] [])] (by decide) rfl).1, ?_⟩
  exact (C2_active_dir_kept_walk_descends id (some (id "/tmp/abc")) "/tmp/abc"
      [TARGET_LOG] [("sub", .node [TARGET_LOG] [])] (by decide) rfl).2
    "sub" (.node [TARGET_LOG] []) (by decide) (by decide) (by decide)

/-- C3: the resolver returns `none` for an absent marker file; on present
content it strips lines, drops the blank ones and returns the canonicalized
last line starting with `/tmp/` (scanning from the end is equivalent to the
last match winning in a left fold), and whenever it resolves to `none` the
sweep records no skip and every sentinel-bearing directory is deleted (the
surviving tree is sentinel-free). -/
theorem C3_resolver_last_match (rp : String → String) :
    load_active_tmp_dir rp none = none ∧
    (∀ rawLines, load_active_tmp_dir rp (some rawLines) =
      (((rawLines.map pyStrip).filter (fun l => l ≠ "")).foldl
        (fun a l => if pyStarts l "/tmp/" then some l else a) none).map rp) ∧
    ∀ marker t, load_active_tmp_dir rp marker = none →
      (∀ p, SweepAction.skip p ∉ (cleanup_tmp_dirs rp marker t).1) ∧
      ∀ t', (cleanup_tmp_dirs rp marker t).2 = some t' → sentFree t' = true := by
  refine ⟨rfl, ?_, ?_⟩
  · intro rawLines
    rw [foldl_lastMatch_eq_find_rev]
    simp [load_active_tmp_dir]
  · intro marker t hnone
    unfold cleanup_tmp_dirs
    rw [hnone]
    exact sweep_none_go rp TMP_DIR t

/-- C3 witness: an absent file resolves to `none`; a marker whose stripped
non-blank lines end with `/tmp/new` resolves to it; a marker with no matching
line leads to a sweep with no skip whose surviving tree is sentinel-free. -/
theorem C3_resolver_last_match_witness :
    load_active_tmp_dir id none = none ∧
    load_active_tmp_dir id (some ["/tmp/old", "  ", "note", "/tmp/new"]) =
      (((["/tmp/old", "  ", "note", "/tmp/new"].map pyStrip).filter
          (fun l => l ≠ "")).foldl
        (fun a l => if pyStarts l "/tmp/" then some l else a) none).map id ∧
    SweepAction.skip "/tmp/x" ∉
      (cleanup_tmp_dirs id (some ["note"])
        (FSTree.node [] [("x", .node [TARGET_LOG] [])])).1 ∧
    sentFree (FSTree.node [] []) = true := by
  refine ⟨(C3_resolver_last_match id).1, (C3_resolver_last_match id).2.1 _, ?_, ?_⟩
  · exact ((C3_resolver_last_match id).2.2 (some ["note"])
      (FSTree.node [] [("x", .node [TARGET_LOG] [])]) (by decide)).1 "/tmp/x"
  · exact ((C3_resolver_last_match id).2.2 (some ["note"])
      (FSTree.node [] [("x", .node [TARGET_LOG] [])]) (by decide)).2
      (FSTree.node [] []) (by decide)

/-- C9: the sweep is idempotent: if the first run leaves the tree `t'`
(deletions all succeeding, the marker file unchanged), a second run over `t'`
changes nothing and records no deletion. -/
theorem C9_sweep_idempotent (rp : String → String) (marker : Option (List String))
    (t t' : FSTree) (h : (cleanup_tmp_dirs rp marker t).2 = some t') :
    (cleanup_tmp_dirs rp marker t').2 = some t' ∧
      ∀ p, SweepAction.delete p ∉ (cleanup_tmp_dirs rp marker t').1 :=
  sweep_idem_go rp (load_active_tmp_dir rp marker) TMP_DIR t t' h

/-- C9 witness: after sweeping a flat tree with active `/tmp/x` and stale
`/tmp/y`, a second sweep of the surviving tree returns it unchanged and in
particular does not delete `/tmp/x`. -/
theorem C9_sweep_idempotent_witness :
    (cleanup_tmp_dirs id (some ["/tmp/x"])
        (FSTree.node [] [("x", .node [TARGET_LOG] [])])).2 =
      some (FSTree.node [] [("x", .node [TARGET_LOG] [])]) ∧
    SweepAction.delete "/tmp/x" ∉
      (cleanup_tmp_dirs id (some ["/tmp/x"])
        (FSTree.node [] [("x", .node [TARGET_LOG] [])])).1 := by
  have h := C9_sweep_idempotent id (some ["/tmp/x"])
    (FSTree.node [] [("x", .node [TARGET_LOG] []), ("y", .node [TARGET_LOG] [])])
    (FSTree.node [] [("x", .node [TARGET_LOG] [])]) (by decide)
  exact ⟨h.1, h.2 "/tmp/x"⟩

/-! ## Embedding of tools/xmledit.py -/

def XML_PATH : String := "/opt/Innovations/System/bot_config.xml"

/-- One `table` record of the configuration document.  Each field is the
`./column[@name=...]` lookup of `ElementTree.find`: the outer option is
whether the column element exists, the inner option its text (an empty
element has text `None`). -/
structure Table where
  key : Option (Option String)
  value : Option (Option String)
  ettc : Option (Option String)
deriving DecidableEq

/-- `update_config` from `xmledit.py`, over the `table` records in document
order.  A record matches when its key column exists and its text equals the
target.  On the first match, `old = value.text` dereferences the value
column: when that column is missing the Python code raises `AttributeError`,
modelled as `Except.error`; otherwise the value text is overwritten with the
new value (already a string) and the scan reports success.  Without a match
the document is returned unchanged with failure. -/
def update_config : List Table → String → String → Except Unit (Bool × List Table)
  | [], _, _ => Except.ok (false, [])
  | t :: rest, target, nv =>
    if t.key = some (some target) then
      match t.value with
      | some _ => Except.ok (true, Table.mk t.key (some (some nv)) t.ettc :: rest)
      | none => Except.error ()
    else
      (update_config rest target nv).map (fun r => (r.1, t :: r.2))

/-- The description cell of one row of `view_configs`: the text of the `ettc`
column when the column exists (Python `None` when it has no text, printed as
the string `None`), the empty string when the column is absent. -/
def viewDesc (t : Table) : Option String :=
  match t.ettc with
  | some et => et
  | none => some ""

/-- The collection loop of `view_configs`: one left fold over the records,
keeping rows whose key and value columns both exist (their text coerced to
the empty string when `None`), and accumulating the running maxima of key and
value display lengths. -/
def view_configs (doc : List Table) :
    List (String × String × Option String) × Nat × Nat :=
  doc.foldl
    (fun acc t =>
      match t.key, t.value with
      | some kt, some vt =>
        (acc.1 ++ [(kt.getD "", vt.getD "", viewDesc t)],
          max acc.2.1 (kt.getD "").length, max acc.2.2 (vt.getD "").length)
      | _, _ => acc)
    ([], 0, 0)

/-- The divider line of `view_configs`: `"-" * (max_key_len + max_val_len + 15)`. -/
def viewDivider (mk mv : Nat) : String :=
  ⟨List.replicate (mk + mv + 15) '-'⟩

/-- Specification-side description of the included entries: the records
having both a key and a value column, in document order. -/
def includedTables (doc : List Table) : List Table :=
  doc.filter (fun t => t.key.isSome && t.value.isSome)

/-- The displayed row of an included record. -/
def rowOf (t : Table) : String × String × Option String :=
  ((t.key.getD none).getD "", (t.value.getD none).getD "", viewDesc t)

/-- Maximum of a list of lengths, zero when empty. -/
def listMax (l : List Nat) : Nat := l.foldr max 0

/-! ### Serialized document and the save path -/

/-- Tokens of the serialized configuration file: the XML declaration header,
the document root element, and per record a table element holding one column
element per present column, carrying its optional text. -/
inductive Tok where
  | decl
  | openRoot
  | closeRoot
  | openTable
  | closeTable
  | col (name : String) (text : Option String)
deriving DecidableEq

/-- Column tokens of one record, in the fixed key, value, ettc order. -/
def encCols (t : Table) : List Tok :=
  (match t.key with
   | some kt => [Tok.col "key" kt]
   | none => []) ++
  (match t.value with
   | some vt => [Tok.col "value" vt]
   | none => []) ++
  (match t.ettc with
   | some et => [Tok.col "ettc" et]
   | none => [])

/-- Serialization of one record. -/
def encTable (t : Table) : List Tok :=
  Tok.openTable :: encCols t ++ [Tok.closeTable]

/-- `ElementTree.write(..., xml_declaration=True)`: the declaration header
followed by the root element wrapping every record in document order. -/
def encodeDoc (doc : List Table) : List Tok :=
  Tok.decl :: Tok.openRoot :: doc.flatMap encTable ++ [Tok.closeRoot]

/-- `table.find("./column[@name=...]")` over a parsed record: the first
column with the given name, when present. -/
def mkTable (cs : List (String × Option String)) : Table :=
  Table.mk ((cs.find? (fun c => c.1 = "key")).map (fun c => c.2))
    ((cs.find? (fun c => c.1 = "value")).map (fun c => c.2))
    ((cs.find? (fun c => c.1 = "ettc")).map (fun c => c.2))

mutual

/-- Parsing of the token stream after the root was opened: a sequence of
table elements up to the closing root. -/
def decBody : List Tok → Option (List Table)
  | [Tok.closeRoot] => some []
  | Tok.openTable :: rest => decTab [] rest
  | _ => none

/-- Parsing of one table element: collect the column elements, then build the
record and continue with the remaining stream. -/
def decTab (acc : List (String × Option String)) : List Tok → Option (List Table)
  | Tok.col n txt :: rest => decTab (acc ++ [(n, txt)]) rest
  | Tok.closeTable :: rest => (decBody rest).map (fun ts => mkTable acc :: ts)
  | _ => none

end

/-- `ElementTree.parse` of a serialized document: declaration, root element,
records. -/
def decodeDoc : List Tok → Option (List Table)
  | Tok.decl :: Tok.openRoot :: rest => decBody rest
  | _ => none

/-- A file-level operation of the save path. -/
inductive FileOp where
  | writeFile (path : String) (content : List Tok)
  | rename (src dst : String)
deriving DecidableEq

/-- Whether an operation is a rename. -/
def FileOp.isRen : FileOp → Bool
  | .rename _ _ => true
  | _ => false

/-- The file operations performed by `main` to persist the document:
`tree.write(XML_PATH, encoding="utf-8", xml_declaration=True)` is a single
direct write of the serialized document to the target path. -/
def saveOps (doc : List Table) : List FileOp :=
  [FileOp.writeFile XML_PATH (encodeDoc doc)]

/-- The save mechanism the specification describes: write the serialized
document to a temporary file in the same directory, then rename it over the
target.  Stated from the words of the specification for comparison with
`saveOps`. -/
def specAtomicSaveOps (doc : List Table) : List FileOp :=
  [FileOp.writeFile (XML_PATH ++ ".tmp") (encodeDoc doc),
    FileOp.rename (XML_PATH ++ ".tmp") XML_PATH]

/-! ### The command line surface of xmledit.py -/

/-- The observable outcome of one invocation of `main`: the exit status,
which diagnostic was printed, whether the update crashed on a missing value
column, whether the table was rendered, the final on-disk document (`none`
when the file is absent), and whether the restart prompt was reached. -/
structure CliOutcome where
  exitCode : Nat
  printedUsage : Bool
  printedBadArgs : Bool
  printedKeyMissing : Bool
  crashed : Bool
  viewed : Bool
  finalFile : Option (List Table)
  promptedRestart : Bool
deriving DecidableEq

/-- `main` from `xmledit.py`.  `argv` includes the program name; `file` is
the config document on disk, `none` when absent.  Fewer than two entries
prints usage and exits 0 before the document is loaded; a missing document
exits 1; `view` as first argument renders and returns regardless of extra
arguments; any other argument count than exactly two exits 1 with the
invalid-arguments message; otherwise the update runs, persisting and
prompting for a restart only on success, and an uncaught `AttributeError`
from the update terminates Python with status 1. -/
def xmledit_main (argv : List String) (file : Option (List Table)) : CliOutcome :=
  match argv with
  | [] => CliOutcome.mk 0 true false false false false file false
  | [_] => CliOutcome.mk 0 true false false false false file false
  | _ :: a1 :: rest =>
    match file with
    | none => CliOutcome.mk 1 false false false false false none false
    | some doc =>
      if a1 = "view" then CliOutcome.mk 0 false false false false true (some doc) false
      else
        match rest with
        | [v] =>
          match update_config doc a1 v with
          | Except.error _ => CliOutcome.mk 1 false false false true false (some doc) false
          | Except.ok (true, d') =>
            CliOutcome.mk 0 false false false false false (some d') true
          | Except.ok (false, _) =>
            CliOutcome.mk 0 false false true false false (some doc) false
        | _ => CliOutcome.mk 1 false true false false false (some doc) false

/-! ## Characterization of the update scan -/

theorem update_config_nomatch (doc : List Table) (target nv : String)
    (h : ∀ t ∈ doc, t.key ≠ some (some target)) :
    update_config doc target nv = Except.ok (false, doc) := by
  induction doc with
  | nil => rfl
  | cons t rest ih =>
    have ht : t.key ≠ some (some target) := h t (List.mem_cons_self ..)
    have hrest := ih (fun u hu => h u (List.mem_cons_of_mem t hu))
    simp [update_config, ht, hrest, Except.map]

theorem update_config_match (pre : List Table) (t0 : Table) (post : List Table)
    (target nv : String) (vt : Option String)
    (hpre : ∀ t ∈ pre, t.key ≠ some (some target))
    (hk : t0.key = some (some target)) (hv : t0.value = some vt) :
    update_config (pre ++ t0 :: post) target nv =
      Except.ok (true, pre ++ Table.mk t0.key (some (some nv)) t0.ettc :: post) := by
  induction pre with
  | nil =>
    simp only [List.nil_append]
    simp [update_config, hk, hv]
  | cons u pre ih =>
    have hu : u.key ≠ some (some target) := hpre u (List.mem_cons_self ..)
    have hrest := ih (fun w hw => hpre w (List.mem_cons_of_mem u hw))
    simp [update_config, hu, hrest, Except.map]

theorem update_config_total (doc : List Table) (target nv : String)
    (h : ∀ t0, doc.find? (fun t => decide (t.key = some (some target))) = some t0 →
      t0.value.isSome = true) :
    ∃ b d', update_config doc target nv = Except.ok (b, d') := by
  induction doc with
  | nil => exact ⟨false, [], rfl⟩
  | cons t rest ih =>
    by_cases hk : t.key = some (some target)
    · have hfind : (t :: rest).find? (fun u => decide (u.key = some (some target))) = some t := by
        simp [List.find?, hk]
      have hval := h t hfind
      cases hvv : t.value with
      | none => rw [hvv] at hval; simp at hval
      | some vt =>
        refine ⟨true, Table.mk t.key (some (some nv)) t.ettc :: rest, ?_⟩
        simp [update_config, hk, hvv]
    · have hdk : (decide (t.key = some (some target))) = false := by simpa using hk
      have hrec := ih (fun t0 ht0 => h t0 (by
        simp only [List.find?, hdk]
        exact ht0))
      obtain ⟨b, d', hd'⟩ := hrec
      exact ⟨b, t :: d', by simp [update_config, hk, hd', Except.map]⟩

/-! ## Round trip of the serialized document -/

/-- The name and text pairs of the present columns of a record, in the
serialization order. -/
def colPairs (t : Table) : List (String × Option String) :=
  (match t.key with
   | some kt => [("key", kt)]
   | none => []) ++
  (match t.value with
   | some vt => [("value", vt)]
   | none => []) ++
  (match t.ettc with
   | some et => [("ettc", et)]
   | none => [])

theorem encCols_eq_colPairs (t : Table) :
    encCols t = (colPairs t).map (fun c => Tok.col c.1 c.2) := by
  obtain ⟨k, v, e⟩ := t
  cases k <;> cases v <;> cases e <;> simp [encCols, colPairs]

theorem mkTable_colPairs (t : Table) : mkTable (colPairs t) = t := by
  obtain ⟨k, v, e⟩ := t
  cases k <;> cases v <;> cases e <;> simp [mkTable, colPairs, List.find?]

theorem decTab_cols (cs : List (String × Option String)) (rest : List Tok)
    (acc : List (String × Option String)) :
    decTab acc (cs.map (fun c => Tok.col c.1 c.2) ++ Tok.closeTable :: rest) =
      (decBody rest).map (fun ts => mkTable (acc ++ cs) :: ts) := by
  induction cs generalizing acc with
  | nil => simp [decTab]
  | cons c cs ih =>
    obtain ⟨n, txt⟩ := c
    simp only [List.map_cons, List.cons_append, decTab, List.append_eq]
    rw [ih (acc ++ [(n, txt)])]
    simp

theorem decBody_encoded (doc : List Table) :
    decBody (doc.flatMap encTable ++ [Tok.closeRoot]) = some doc := by
  induction doc with
  | nil => simp [decBody]
  | cons t rest ih =>
    simp only [List.flatMap_cons, encTable, List.append_assoc, List.cons_append,
      List.nil_append]
    simp only [decBody]
    rw [encCols_eq_colPairs,
      decTab_cols (colPairs t) (rest.flatMap encTable ++ [Tok.closeRoot]) []]
    rw [ih]
    simp [mkTable_colPairs]

theorem decodeDoc_encodeDoc (doc : List Table) :
    decodeDoc (encodeDoc doc) = some doc := by
  simp only [encodeDoc, decodeDoc]
  exact decBody_encoded doc

/-! ## Characterization of the view collection loop -/

theorem view_configs_fold (doc : List Table)
    (racc : List (String × String × Option String)) (ka va : Nat) :
    doc.foldl
      (fun acc t =>
        match t.key, t.value with
        | some kt, some vt =>
          (acc.1 ++ [(kt.getD "", vt.getD "", viewDesc t)],
            max acc.2.1 (kt.getD "").length, max acc.2.2 (vt.getD "").length)
        | _, _ => acc)
      (racc, ka, va) =
      (racc ++ (includedTables doc).map rowOf,
        max ka (listMax ((includedTables doc).map (fun t => (rowOf t).1.length))),
        max va (listMax ((includedTables doc).map (fun t => (rowOf t).2.1.length)))) := by
  induction doc generalizing racc ka va with
  | nil => simp [includedTables, listMax]
  | cons t rest ih =>
    cases hk : t.key with
    | none =>
      simp only [List.foldl_cons, hk]
      rw [ih racc ka va]
      simp [includedTables, hk]
    | some kt =>
      cases hv : t.value with
      | none =>
        simp only [List.foldl_cons, hk, hv]
        rw [ih racc ka va]
        simp [includedTables, hk, hv]
      | some vt =>
        simp only [List.foldl_cons, hk, hv]
        rw [ih (racc ++ [(kt.getD "", vt.getD "", viewDesc t)])
          (max ka (kt.getD "").length) (max va (vt.getD "").length)]
        have hinc : includedTables (t :: rest) = t :: includedTables rest := by
          simp [includedTables, hk, hv]
        have hrow : rowOf t = (kt.getD "", vt.getD "", viewDesc t) := by
          simp [rowOf, hk, hv]
        rw [hinc]
        simp only [List.map_cons, hrow, listMax, List.foldr_cons]
        refine Prod.ext ?_ (Prod.ext ?_ ?_)
        · simp
        · simp only [Nat.max_assoc]
        · simp only [Nat.max_assoc]

theorem viewDivider_len (mk mv : Nat) :
    (viewDivider mk mv).length = mk + mv + 15 := by
  simp [viewDivider, String.length]

theorem viewDivider_dashes (mk mv : Nat) :
    (viewDivider mk mv).data.all (fun ch => ch == '-') = true := by
  simp only [viewDivider, List.all_eq_true]
  intro ch hch
  have := List.eq_of_mem_replicate hch
  simp [this]

/-! ## Claims about the configuration editor -/

/-- C4, counterexample to the claim as stated: persisting the document is a
single direct write of the serialized document to the target path; no
temporary file is written and nothing is renamed, unlike the
temp-file-plus-rename sequence the claim describes. -/
theorem C4_no_temp_rename_cex :
    saveOps [Table.mk (some (some "k")) (some (some "v")) none] ≠
      specAtomicSaveOps [Table.mk (some (some "k")) (some (some "v")) none] ∧
    (saveOps [Table.mk (some (some "k")) (some (some "v")) none]).all
      (fun op => !op.isRen) = true ∧
    (specAtomicSaveOps [Table.mk (some (some "k")) (some (some "v")) none]).any
      (fun op => op.isRen) = true ∧
    saveOps [Table.mk (some (some "k")) (some (some "v")) none] =
      [FileOp.writeFile XML_PATH
        (encodeDoc [Table.mk (some (some "k")) (some (some "v")) none])] := by
  decide

/-- C4 (amended): saving serializes the full document — the serialized stream
opens with the declaration header and parses back to the same document — but
it is written directly, in place, to the target path: the operation list is a
single write of the target with no temporary file and no rename, so the
temp-file-plus-rename atomicity described by the claim is absent. -/
theorem C4_save_writes_target_directly (doc : List Table) :
    saveOps doc = [FileOp.writeFile XML_PATH (encodeDoc doc)] ∧
    (encodeDoc doc).head? = some Tok.decl ∧
    decodeDoc (encodeDoc doc) = some doc ∧
    (saveOps doc).all (fun op => !op.isRen) = true :=
  ⟨rfl, rfl, decodeDoc_encodeDoc doc, rfl⟩

/-- C5: the update scans records in document order; when no record matches it
returns false with the document unchanged and the caller neither writes the
file nor prompts for a restart (the on-disk document is untouched); when the
first matching record (duplicates notwithstanding) has a value column, that
record alone gets its value overwritten with the new string and the scan
returns true, all other records and the matched record's key and description
being kept. -/
theorem C5_update_first_match_only (doc : List Table) (target nv : String) :
    ((∀ t ∈ doc, t.key ≠ some (some target)) →
      update_config doc target nv = Except.ok (false, doc) ∧
      (target ≠ "view" →
        xmledit_main ["xmledit.py", target, nv] (some doc) =
          CliOutcome.mk 0 false false true false false (some doc) false)) ∧
    ∀ pre t0 post vt, doc = pre ++ t0 :: post →
      (∀ t ∈ pre, t.key ≠ some (some target)) →
      t0.key = some (some target) → t0.value = some vt →
      update_config doc target nv =
        Except.ok (true, pre ++ Table.mk t0.key (some (some nv)) t0.ettc :: post) := by
  constructor
  · intro h
    have hu := update_config_nomatch doc target nv h
    refine ⟨hu, ?_⟩
    intro hview
    simp [xmledit_main, hview, hu]
  · intro pre t0 post vt hd hpre hk hv
    subst hd
    exact update_config_match pre t0 post target nv vt hpre hk hv

/-- C5 witness: an unmatched key leaves the single-record document unchanged
and unsaved; a matched key among duplicates mutates only the first matching
record. -/
theorem C5_update_first_match_only_witness :
    update_config [Table.mk (some (some "a")) (some (some "1")) none]
      "nonexistent_key" "x" =
      Except.ok (false, [Table.mk (some (some "a")) (some (some "1")) none]) ∧
    xmledit_main ["xmledit.py", "nonexistent_key", "x"]
      (some [Table.mk (some (some "a")) (some (some "1")) none]) =
      CliOutcome.mk 0 false false true false false
        (some [Table.mk (some (some "a")) (some (some "1")) none]) false ∧
    update_config
      [Table.mk (some (some "b")) (some (some "1")) none,
        Table.mk (some (some "poll_interval")) (some (some "30")) none,
        Table.mk (some (some "poll_interval")) (some (some "99")) none]
      "poll_interval" "60" =
      Except.ok (true,
        [Table.mk (some (some "b")) (some (some "1")) none,
          Table.mk (some (some "poll_interval")) (some (some "60")) none,
          Table.mk (some (some "poll_interval")) (some (some "99")) none]) := by
  refine ⟨?_, ?_, ?_⟩
  · exact ((C5_update_first_match_only
      [Table.mk (some (some "a")) (some (some "1")) none] "nonexistent_key" "x").1
      (by decide)).1
  · exact ((C5_update_first_match_only
      [Table.mk (some (some "a")) (some (some "1")) none] "nonexistent_key" "x").1
      (by decide)).2 (by decide)
  · exact (C5_update_first_match_only
      [Table.mk (some (some "b")) (some (some "1")) none,
        Table.mk (some (some "poll_interval")) (some (some "30")) none,
        Table.mk (some (some "poll_interval")) (some (some "99")) none]
      "poll_interval" "60").2
      [Table.mk (some (some "b")) (some (some "1")) none]
      (Table.mk (some (some "poll_interval")) (some (some "30")) none)
      [Table.mk (some (some "poll_interval")) (some (some "99")) none]
      (some "30") rfl (by decide) rfl rfl

/-- C6, counterexample to the claim as stated: four command line entries
(three arguments) with the document present print the invalid-arguments
message and exit with status 1, not usage with status 0. -/
theorem C6_extra_args_exit1_cex :
    (xmledit_main ["xmledit.py", "a", "b", "c"] (some [])).exitCode = 1 ∧
    (xmledit_main ["xmledit.py", "a", "b", "c"] (some [])).printedUsage = false ∧
    (xmledit_main ["xmledit.py", "a", "b", "c"] (some [])).printedBadArgs = true := by
  decide

/-- C6 (amended): fewer than two command line entries prints usage and exits
0 before the document is loaded; otherwise a missing document exits 1; with
the document present, a first argument `view` renders and exits 0; a
non-`view` invocation whose argument count differs from the key-and-value
form prints the invalid-arguments message and exits 1 (not usage and 0); an
unmatched key prints an error, leaves the file untouched and exits 0. -/
theorem C6_cli_argument_handling (argv : List String) (file : Option (List Table))
    (doc : List Table) (prog target v : String) :
    (argv.length < 2 →
      xmledit_main argv file = CliOutcome.mk 0 true false false false false file false) ∧
    (2 ≤ argv.length → file = none → (xmledit_main argv file).exitCode = 1) ∧
    (∀ a1 rest, argv = prog :: a1 :: rest → a1 = "view" → file = some doc →
      xmledit_main argv file =
        CliOutcome.mk 0 false false false false true (some doc) false) ∧
    (∀ a1 rest, argv = prog :: a1 :: rest → a1 ≠ "view" → rest.length ≠ 1 →
      file = some doc →
      xmledit_main argv file =
        CliOutcome.mk 1 false true false false false (some doc) false) ∧
    (argv = [prog, target, v] → target ≠ "view" → file = some doc →
      (∀ t ∈ doc, t.key ≠ some (some target)) →
      xmledit_main argv file =
        CliOutcome.mk 0 false false true false false (some doc) false) := by
  refine ⟨?_, ?_, ?_, ?_, ?_⟩
  · intro hlen
    match argv with
    | [] => rfl
    | [_] => rfl
    | _ :: _ :: _ => exact absurd hlen (by simp)
  · intro hlen hf
    match argv with
    | [] => simp at hlen
    | [_] => simp at hlen
    | _ :: _ :: _ =>
      subst hf
      rfl
  · intro a1 rest hargv hview hf
    subst hargv
    subst hview
    subst hf
    simp [xmledit_main]
  · intro a1 rest hargv hne hlen hf
    subst hargv
    subst hf
    match rest with
    | [] => simp [xmledit_main, hne]
    | [_] => simp at hlen
    | _ :: _ :: _ => simp [xmledit_main, hne]
  · intro hargv hview hf hnokey
    subst hargv
    subst hf
    have hu := update_config_nomatch doc target v hnokey
    simp [xmledit_main, hview, hu]

/-- C6 witness: the five argument shapes at concrete inputs. -/
theorem C6_cli_argument_handling_witness :
    xmledit_main ["xmledit.py"] (some []) =
      CliOutcome.mk 0 true false false false false (some []) false ∧
    (xmledit_main ["xmledit.py", "view"] none).exitCode = 1 ∧
    xmledit_main ["xmledit.py", "view"] (some []) =
      CliOutcome.mk 0 false false false false true (some []) false ∧
    xmledit_main ["xmledit.py", "a", "b", "c"] (some []) =
      CliOutcome.mk 1 false true false false false (some []) false ∧
    xmledit_main ["xmledit.py", "nonexistent_key", "x"] (some []) =
      CliOutcome.mk 0 false false true false false (some []) false := by
  refine ⟨?_, ?_, ?_, ?_, ?_⟩
  · exact (C6_cli_argument_handling ["xmledit.py"] (some []) [] "xmledit.py" "k" "v").1
      (by decide)
  · exact (C6_cli_argument_handling ["xmledit.py", "view"] none [] "xmledit.py" "k"
      "v").2.1 (by decide) rfl
  · exact (C6_cli_argument_handling ["xmledit.py", "view"] (some []) [] "xmledit.py" "k"
      "v").2.2.1 "view" [] rfl rfl rfl
  · exact (C6_cli_argument_handling ["xmledit.py", "a", "b", "c"] (some []) []
      "xmledit.py" "k" "v").2.2.2.1 "a" ["b", "c"] rfl (by decide) (by decide) rfl
  · exact (C6_cli_argument_handling ["xmledit.py", "nonexistent_key", "x"] (some []) []
      "xmledit.py" "nonexistent_key" "x").2.2.2.2 rfl (by decide) rfl (by decide)

/-- C7: updating an existing key, persisting and reloading round-trips: the
serialized document parses back to the updated document, whose value at the
first record matching the key is the new string, the surrounding records and
the matched record's key and description left as they were. -/
theorem C7_update_save_load_roundtrip (doc : List Table) (target nv : String)
    (pre : List Table) (t0 : Table) (post : List Table) (vt : Option String)
    (hd : doc = pre ++ t0 :: post)
    (hpre : ∀ t ∈ pre, t.key ≠ some (some target))
    (hk : t0.key = some (some target)) (hv : t0.value = some vt) :
    ∃ d', update_config doc target nv = Except.ok (true, d') ∧
      decodeDoc (encodeDoc d') = some d' ∧
      d' = pre ++ Table.mk t0.key (some (some nv)) t0.ettc :: post ∧
      (d'.find? (fun t => decide (t.key = some (some target)))).map Table.value =
        some (some (some nv)) := by
  subst hd
  refine ⟨pre ++ Table.mk t0.key (some (some nv)) t0.ettc :: post,
    update_config_match pre t0 post target nv vt hpre hk hv,
    decodeDoc_encodeDoc _, rfl, ?_⟩
  rw [List.find?_append]
  have hpn : pre.find? (fun t => decide (t.key = some (some target))) = none := by
    rw [List.find?_eq_none]
    intro x hx
    simpa using hpre x hx
  rw [hpn, Option.none_or]
  simp [List.find?, hk]

/-- C7 witness: updating `poll_interval` to `60` in a two-record document,
serializing and parsing back yields the document with the new value, the
other record untouched. -/
theorem C7_update_save_load_roundtrip_witness :
    ∃ d', update_config
        [Table.mk (some (some "b")) (some (some "1")) (some (some "other")),
          Table.mk (some (some "poll_interval")) (some (some "30")) none]
        "poll_interval" "60" = Except.ok (true, d') ∧
      decodeDoc (encodeDoc d') = some d' ∧
      d' = [Table.mk (some (some "b")) (some (some "1")) (some (some "other"))] ++
        Table.mk (some (some "poll_interval")) (some (some "60")) none :: [] ∧
      (d'.find? (fun t => decide (t.key = some (some "poll_interval")))).map
        Table.value = some (some (some "60")) :=
  C7_update_save_load_roundtrip
    [Table.mk (some (some "b")) (some (some "1")) (some (some "other")),
      Table.mk (some (some "poll_interval")) (some (some "30")) none]
    "poll_interval" "60"
    [Table.mk (some (some "b")) (some (some "1")) (some (some "other"))]
    (Table.mk (some (some "poll_interval")) (some (some "30")) none) []
    (some "30") rfl (by decide) rfl rfl

/-- C8: the rendered table includes exactly the records having both a key and
a value column, in document order; the key and value column widths are the
maxima of the included key and value display lengths; the divider is a run of
dashes of length key width plus value width plus fifteen. -/
theorem C8_view_included_and_widths (doc : List Table) :
    (view_configs doc).1 = (includedTables doc).map rowOf ∧
    (view_configs doc).2.1 = listMax ((view_configs doc).1.map (fun r => r.1.length)) ∧
    (view_configs doc).2.2 =
      listMax ((view_configs doc).1.map (fun r => r.2.1.length)) ∧
    (viewDivider (view_configs doc).2.1 (view_configs doc).2.2).length =
      (view_configs doc).2.1 + (view_configs doc).2.2 + 15 ∧
    (viewDivider (view_configs doc).2.1 (view_configs doc).2.2).data.all
      (fun ch => ch == '-') = true := by
  have hv : view_configs doc = ((includedTables doc).map rowOf,
      listMax ((includedTables doc).map (fun t => (rowOf t).1.length)),
      listMax ((includedTables doc).map (fun t => (rowOf t).2.1.length))) := by
    unfold view_configs
    rw [view_configs_fold doc [] 0 0]
    simp
  refine ⟨by rw [hv], ?_, ?_, viewDivider_len .., viewDivider_dashes ..⟩
  · rw [hv]
    simp [List.map_map]
    rfl
  · rw [hv]
    simp [List.map_map]
    rfl

/-- C10: the update is total exactly on the documents whose first record
matching the target key, if any, has a value column: under that precondition
it returns a boolean verdict, while on a record with a key but no value
column it raises (the modelled `AttributeError` of `value.text` on `None`),
even though the viewer excludes that same record without error. -/
theorem C10_update_partial_on_missing_value_column :
    (∀ doc target nv,
      (∀ t0, doc.find? (fun t => decide (t.key = some (some target))) = some t0 →
        t0.value.isSome = true) →
      ∃ b d', update_config doc target nv = Except.ok (b, d')) ∧
    update_config [Table.mk (some (some "poll_interval")) none none]
      "poll_interval" "60" = Except.error () ∧
    (view_configs [Table.mk (some (some "poll_interval")) none none]).1 = [] := by
  refine ⟨fun doc target nv h => update_config_total doc target nv h, rfl, rfl⟩

/-- C10 witness: on a well-formed single-record document the update returns a
verdict rather than raising. -/
theorem C10_update_partial_on_missing_value_column_witness :
    (update_config [Table.mk (some (some "a")) (some (some "1")) none] "a" "2").isOk =
      true := by
  obtain ⟨b, d', hb⟩ := (C10_update_partial_on_missing_value_column).1
    [Table.mk (some (some "a")) (some (some "1")) none] "a" "2" (by decide)
  rw [hb]
  rfl
